import Mathlib

/-!
Verification of the forge-lsp symbol-resolution core.

This file gives a shallow embedding of the Rust sources of the forge-lsp
language server (src/lsp.rs, src/symbols.rs, src/references.rs, src/rename.rs)
and proves or refutes the specification's claims about them.

Modelling conventions:
* Rust strings and byte slices are modelled as `List Char` (`Str`); byte
  offsets use `Char.utf8Size`, so `byteLen` matches Rust's `str::len`.
* Rust `HashMap`/`HashSet` are modelled as association lists / duplicate-free
  lists that preserve insertion order (Rust's iteration order is
  implementation-defined; the list order is one deterministic realisation,
  which is what each single run of the program exhibits).
* File-system access (`std::fs::read`, `std::fs::write`) is modelled by an
  explicit `FS` value threaded through the functions that perform IO, with a
  set of paths whose writes fail.
* `serde_json::Value` is modelled by the inductive `Json`.
* The repository's `goto.rs` (containing `cache_ids`, `pos_to_bytes`,
  `bytes_to_pos`, `NodeInfo` and `goto_declaration`) is not under src/; those
  definitions are modelled from the specification and are marked as such.
-/

namespace ForgeLsp

/-- Rust string contents, modelled as a list of unicode scalar values. -/
abbrev Str := List Char

/-- Byte length of a string, as Rust's `str::len` (UTF-8 code units). -/
def byteLen : Str → Nat
  | [] => 0
  | c :: r => c.utf8Size + byteLen r

/-- The UTF-8 encoding of one character, as a list of byte values. -/
def charBytes (c : Char) : List Nat :=
  let n := c.toNat
  if n < 128 then [n]
  else if n < 2048 then [192 + n / 64, 128 + n % 64]
  else if n < 65536 then [224 + n / 4096, 128 + n / 64 % 64, 128 + n % 64]
  else [240 + n / 262144, 128 + n / 4096 % 64, 128 + n / 64 % 64, 128 + n % 64]

/-- The UTF-8 byte sequence of a string, as Rust's `str::as_bytes`. -/
def utf8Bytes : Str → List Nat
  | [] => []
  | c :: r => charBytes c ++ utf8Bytes r

/-- Rust's `str::lines`: split at `'\n'`, dropping one `'\r'` directly before a
`'\n'`; the final line ending is optional and produces no extra empty line. -/
def linesOf : Str → List Str
  | [] => []
  | '\n' :: rest => [] :: linesOf rest
  | '\r' :: '\n' :: rest => [] :: linesOf rest
  | c :: rest =>
    match linesOf rest with
    | [] => [[c]]
    | l :: ls => (c :: l) :: ls

/-- Rust's `str::split(':')` collected into a vector (an empty input yields one
empty part, and every separator starts a new part). -/
def splitColon : Str → List Str
  | [] => [[]]
  | ':' :: rest => [] :: splitColon rest
  | c :: rest =>
    match splitColon rest with
    | [] => [[c]]
    | p :: ps => (c :: p) :: ps

/-- Decimal digit test for characters. -/
def isDigitCh (c : Char) : Bool := '0' ≤ c && c ≤ '9'

/-- Value of a digit string (assumes all characters are digits). -/
def digitsToNat (s : Str) : Nat :=
  s.foldl (fun acc c => acc * 10 + (c.toNat - 48)) 0

/-- Rust's `str::parse::<usize>()`: an optional leading `'+'` followed by at
least one digit (arithmetic overflow is not modelled; spans in scope are
small). -/
def parseUsize (s : Str) : Option Nat :=
  let t := match s with
    | '+' :: r => r
    | _ => s
  if t = [] then none
  else if t.all isDigitCh then some (digitsToNat t) else none

/-- Association-list lookup, modelling `HashMap::get`. -/
def alGet {α β : Type} [DecidableEq α] : List (α × β) → α → Option β
  | [], _ => none
  | (k', v) :: rest, k => if k' = k then some v else alGet rest k

/-- Association-list update-or-append, modelling `HashMap::insert`. -/
def alSet {α β : Type} [DecidableEq α] : List (α × β) → α → β → List (α × β)
  | [], k, v => [(k, v)]
  | (k', v') :: rest, k, v =>
    if k' = k then (k, v) :: rest else (k', v') :: alSet rest k v

/-- A zero-based line/character position (`lsp_types::Position`). -/
structure Position where
  line : Nat
  character : Nat
deriving DecidableEq, Repr

/-- A text range (`lsp_types::Range`); `endPos` is the Rust field `end`. -/
structure Range where
  start : Position
  endPos : Position
deriving DecidableEq, Repr

/-- A file URI, modelled by the absolute file path it designates
(`Url::from_file_path` / `Url::to_file_path` are each other's inverses on the
inputs in scope). -/
structure Url where
  path : Str
deriving DecidableEq, Repr

/-- A location in a file (`lsp_types::Location`). -/
structure Location where
  uri : Url
  range : Range
deriving DecidableEq, Repr

/-- A single text replacement (`lsp_types::TextEdit`). -/
structure TextEdit where
  range : Range
  newText : Str
deriving DecidableEq, Repr

/-- A workspace edit: per-URI lists of text edits (`WorkspaceEdit.changes`;
the `Option` around the Rust map is dropped because every constructor in the
sources fills it with `Some`). -/
structure WorkspaceEdit where
  changes : List (Url × List TextEdit)
deriving DecidableEq, Repr

/-- Per-node information extracted from the compiler AST. The struct lives in
the repository's goto.rs, which is not under src/; the fields are the ones
references.rs reads (`src`, `name_location`, `referenced_declaration`),
matching the spec's NodeInfo. -/
structure NodeInfo where
  src : Str
  name_location : Option Str
  referenced_declaration : Option Nat
deriving DecidableEq, Repr

/-- The per-file node table: absolute path to {node id to NodeInfo}. -/
abbrev NodeTable := List (Str × List (Nat × NodeInfo))

/-- The file system visible to the server: path to content, plus the paths
whose writes fail (modelling `std::fs::write` errors). -/
structure FS where
  files : List (Str × Str)
  failWrites : List Str
deriving DecidableEq, Repr

/-- Modelling `std::fs::read` / `std::fs::read_to_string`. -/
def fsRead (fs : FS) (p : Str) : Option Str := alGet fs.files p

/-- Modelling `std::fs::write`: fails exactly on the designated paths. -/
def fsWrite (fs : FS) (p : Str) (content : Str) : Option FS :=
  if p ∈ fs.failWrites then none
  else some { fs with files := alSet fs.files p content }

/-- `serde_json::Value`. -/
inductive Json where
  | null
  | bool (b : Bool)
  | num (n : Int)
  | str (s : Str)
  | arr (elems : List Json)
  | obj (fields : List (Str × Json))

/-- Object-field access, modelling `Value::get` on objects. -/
def jGet (j : Json) (k : String) : Option Json :=
  match j with
  | .obj kvs => alGet kvs k.data
  | _ => none

/- ===== Span arithmetic (src/lsp.rs, src/symbols.rs; spec section 4.1) ===== -/

/-- Sum of `len(line_i) + 1` over a list of lines, as the loop in
`byte_offset` accumulates it. -/
def sumLens (ls : List Str) : Nat := (ls.map (fun l => byteLen l + 1)).sum

/-- src/lsp.rs `byte_offset` (lines 11-25): line/character position to byte
offset. Errors when the line index is out of range or the computed offset
exceeds the content length; the character count is taken as a byte count and
is not checked against the line length. -/
def byte_offset (content : Str) (pos : Position) : Except String Nat :=
  let lines := linesOf content
  if pos.line ≥ lines.length then .error "Line out of range"
  else
    let offset := sumLens (lines.take pos.line) + pos.character
    if offset > byteLen content then .error "Character out of range"
    else .ok offset

/-- The character-walking loop of src/symbols.rs `byte_offset_to_position`:
`rem` is the remaining byte distance to the target offset (`i >= byte_offset`
in the Rust loop corresponds to `rem = 0` under saturating subtraction). -/
def b2pGo : Str → Nat → Nat → Nat → Position
  | [], _, line, ch => ⟨line, ch⟩
  | c :: rest, rem, line, ch =>
    if rem = 0 then ⟨line, ch⟩
    else if c = '\n' then b2pGo rest (rem - c.utf8Size) (line + 1) 0
    else b2pGo rest (rem - c.utf8Size) line (ch + 1)

/-- src/symbols.rs `byte_offset_to_position` (lines 240-261): walk
`char_indices`, bumping the line on `'\n'` and the character count otherwise,
stopping at the first character whose byte index reaches the offset. It never
returns `none`. -/
def byte_offset_to_position (content : Str) (byteOffset : Nat) : Option Position :=
  some (b2pGo content byteOffset 0 0)

/-- Modelled from the spec: `pos_to_bytes` lives in goto.rs, which is not
under src/. Spec 4.1 `byteOffsetOf`: sum `len(line_i) + 1` for `i < line` and
add `character` bytes. references.rs line 158 calls it infallibly, so the
model is total and simply returns the computed sum. -/
def pos_to_bytes (content : Str) (pos : Position) : Nat :=
  sumLens ((linesOf content).take pos.line) + pos.character

/-- Modelled from the spec: `bytes_to_pos` lives in goto.rs, which is not
under src/. Spec 4.1 `positionOf`: inverse walk, incrementing the line on
newline and resetting the character; fails (`OutOfRange`) when the offset
exceeds the content length. -/
def bytes_to_pos (content : Str) (off : Nat) : Option Position :=
  if off > byteLen content then none else some (b2pGo content off 0 0)

/- ===== AST ingestion (spec section 4.2; goto.rs is not under src/) ===== -/

/-- The fixed set of child-bearing JSON fields the AST walk descends into
(spec section 4.2; the same list appears in src/symbols.rs
`push_child_nodes`). -/
def childFields : List Str :=
  ["nodes".data, "body".data, "statements".data, "parameters".data,
   "returnParameters".data, "members".data, "modifiers".data,
   "baseContracts".data, "arguments".data, "expression".data,
   "leftExpression".data, "rightExpression".data, "condition".data,
   "trueBody".data, "falseBody".data, "initialValue".data, "typeName".data]

/-- The NodeInfo recorded for one visited JSON object: present exactly when
the object has an integer `id` and a string `src`; `nameLocation` and
`referencedDeclaration` are captured when present (spec section 4.2). -/
def nodeEntry (kvs : List (Str × Json)) : List (Nat × NodeInfo) :=
  match alGet kvs "id".data, alGet kvs "src".data with
  | some (.num n), some (.str s) =>
    if n < 0 then []
    else
      [(n.toNat,
        { src := s
          name_location :=
            match alGet kvs "nameLocation".data with
            | some (.str nl) => some nl
            | _ => none
          referenced_declaration :=
            match alGet kvs "referencedDeclaration".data with
            | some (.num r) => if r < 0 then none else some r.toNat
            | _ => none })]
  | _, _ => []

mutual

/-- Modelled from the spec: the depth-first AST walk of `cache_ids` (goto.rs,
not under src/; spec section 4.2): visit an object, record its NodeInfo when
present, and descend into the child-bearing fields. -/
def visitJson : Json → List (Nat × NodeInfo)
  | .obj kvs => nodeEntry kvs ++ visitFields kvs
  | _ => []

/-- Walk the fields of one object, descending only into `childFields`. -/
def visitFields : List (Str × Json) → List (Nat × NodeInfo)
  | [] => []
  | (k, v) :: rest => (if k ∈ childFields then visitValue v else []) ++ visitFields rest

/-- Descend into one child-bearing field value: arrays element-wise, objects
directly, anything else ignored. -/
def visitValue : Json → List (Nat × NodeInfo)
  | .arr xs => visitList xs
  | .obj kvs => nodeEntry kvs ++ visitFields kvs
  | _ => []

/-- Visit every element of a child array. -/
def visitList : List Json → List (Nat × NodeInfo)
  | [] => []
  | x :: xs => visitJson x ++ visitList xs

end

/-- One step of `cache_ids` over the `sources` object: each value is an array
whose first element carries `source_file.ast` (spec section 4.2). Produces the
node table entry and the request-path-to-absolute-path entry for one source. -/
def cacheIdsLoop : List (Str × Json) → NodeTable × List (Str × Str)
  | [] => ([], [])
  | (path, contents) :: rest =>
    let (ns, ps) := cacheIdsLoop rest
    match contents with
    | .arr (first :: _) =>
      match jGet first "source_file" with
      | some sf =>
        match jGet sf "ast" with
        | some ast => ((path, visitJson ast) :: ns, (path, path) :: ps)
        | none => (ns, ps)
      | none => (ns, ps)
    | _ => (ns, ps)

/-- Modelled from the spec: `cache_ids` (goto.rs, not under src/; spec
section 4.2) walks every `ast` subtree and returns the per-file node table
plus the request-path index. The index maps each source path to the
canonical absolute form; with the absolute paths used throughout this
development that map is the identity on the source keys. -/
def cache_ids (sources : Json) : NodeTable × List (Str × Str) :=
  match sources with
  | .obj kvs => cacheIdsLoop kvs
  | _ => ([], [])

/- ===== Reference graph (src/references.rs) ===== -/

/-- `HashMap::entry(k).or_default().push(v)` on an adjacency list. -/
def pushEntry (m : List (Nat × List Nat)) (k v : Nat) : List (Nat × List Nat) :=
  match m with
  | [] => [(k, [v])]
  | (k', vs) :: rest =>
    if k' = k then (k', vs ++ [v]) :: rest else (k', vs) :: pushEntry rest k v

/-- src/references.rs `all_references` (lines 9-24): for every node with a
`referenced_declaration`, insert both directions into the adjacency map. -/
def all_references (nodes : NodeTable) : List (Nat × List Nat) :=
  nodes.foldl
    (fun acc kv =>
      kv.2.foldl
        (fun acc idInfo =>
          match idInfo.2.referenced_declaration with
          | some refId => pushEntry (pushEntry acc refId idInfo.1) idInfo.1 refId
          | none => acc)
        acc)
    []

/-- `HashMap::entry(k).or_insert(v)`: keep the existing value if the key is
present, otherwise append. -/
def entryOrInsert (l : List (Nat × Nat)) (k v : Nat) : List (Nat × Nat) :=
  if (alGet l k).isSome then l else l ++ [(k, v)]

/-- The node loop of src/references.rs `byte_to_id` (lines 35-49): spans that
do not split into exactly three parts are skipped (`continue`); a span whose
first or second part fails integer parsing aborts the whole function with
`None` (the `?` operator); spans containing the byte position record their
length in `refs` keeping the first id seen per length. -/
def byteToIdLoop (bytePos : Nat) : List (Nat × NodeInfo) → List (Nat × Nat) → Option (List (Nat × Nat))
  | [], refs => some refs
  | (id, info) :: rest, refs =>
    match splitColon info.src with
    | [p0, p1, _] =>
      match parseUsize p0 with
      | none => none
      | some start =>
        match parseUsize p1 with
        | none => none
        | some length =>
          if start ≤ bytePos ∧ bytePos < start + length then
            byteToIdLoop bytePos rest (entryOrInsert refs (start + length - start) id)
          else byteToIdLoop bytePos rest refs
    | _ => byteToIdLoop bytePos rest refs

/-- Minimum of the keys of an association list (`refs.keys().min()`). -/
def minKey : List (Nat × Nat) → Option Nat
  | [] => none
  | (k, _) :: rest =>
    match minKey rest with
    | none => some k
    | some m => some (min k m)

/-- src/references.rs `byte_to_id` (lines 27-52): find the node at a byte
position in a file — collect the span lengths of all nodes containing the
position and return the id recorded for the minimal length. -/
def byte_to_id (nodes : NodeTable) (absPath : Str) (bytePos : Nat) : Option Nat :=
  match alGet nodes absPath with
  | none => none
  | some fileNodes =>
    match byteToIdLoop bytePos fileNodes [] with
    | none => none
    | some refs =>
      match minKey refs with
      | none => none
      | some m => alGet refs m

/-- The parsed span of a node's `src` string, for stating theorems: defined
exactly when the string splits into three parts whose first two parse as
integers. -/
def spanOf (info : NodeInfo) : Option (Nat × Nat × Str) :=
  match splitColon info.src with
  | [p0, p1, p2] =>
    match parseUsize p0, parseUsize p1 with
    | some s, some l => some (s, l, p2)
    | _, _ => none
  | _ => none

/-- First file table containing a node id (the file scan at the top of
src/references.rs `id_to_location`, lines 60-69). -/
def findNode : NodeTable → Nat → Option NodeInfo
  | [], _ => none
  | (_, fileNodes) :: rest, id =>
    match alGet fileNodes id with
    | some n => some n
    | none => findNode rest id

/-- src/references.rs `id_to_location` (lines 55-106): prefer `name_location`
over `src`, require exactly three span parts, resolve the file id through the
path index, read the file, and convert both span ends to positions. The
`current_dir` join for relative paths is elided: all paths in scope are
absolute and are read from the modelled file system as given. -/
def id_to_location (fs : FS) (nodes : NodeTable) (idToPath : List (Str × Str)) (nodeId : Nat) : Option Location :=
  match findNode nodes nodeId with
  | none => none
  | some node =>
    let parts :=
      match node.name_location with
      | some nl => splitColon nl
      | none => splitColon node.src
    match parts with
    | [byteStr, lenStr, fileId] =>
      match parseUsize byteStr, parseUsize lenStr with
      | some off, some len =>
        match alGet idToPath fileId with
        | none => none
        | some filePath =>
          match fsRead fs filePath with
          | none => none
          | some sourceBytes =>
            match bytes_to_pos sourceBytes off, bytes_to_pos sourceBytes (off + len) with
            | some startPos, some endP => some ⟨⟨filePath⟩, ⟨startPos, endP⟩⟩
            | _, _ => none
      | _, _ => none
    | _ => none

/-- The `sources`/`build_infos` parsing and path-resolution prefix of
src/references.rs `goto_references` (lines 115-155): yields the node table,
the file-id-to-path map, and the canonical absolute path of the request URI,
or `none` where the Rust returns an empty vector. -/
def gotoRefsEnv (ast : Json) (fileUri : Url) : Option (NodeTable × List (Str × Str) × Str) :=
  match jGet ast "sources" with
  | none => none
  | some sources =>
    match jGet ast "build_infos" with
    | some (.arr (firstInfo :: _)) =>
      match jGet firstInfo "source_id_to_path" with
      | some (.obj idToPath) =>
        let idToPathMap : List (Str × Str) :=
          idToPath.map (fun kv =>
            (kv.1, match kv.2 with
                   | .str s => s
                   | _ => []))
        let (nodes, pathToAbs) := cache_ids sources
        match alGet pathToAbs fileUri.path with
        | none => none
        | some absPath => some (nodes, idToPathMap, absPath)
      | _ => none
    | _ => none

/-- The target-resolution step of src/references.rs `goto_references` (lines
161-181): the node at the byte position, redirected to its
`referenced_declaration` when it has one. `none` captures the early empty
returns. -/
def targetIdAt (nodes : NodeTable) (absPath : Str) (bytePos : Nat) : Option Nat :=
  match byte_to_id nodes absPath bytePos with
  | none => none
  | some nodeId =>
    match alGet nodes absPath with
    | none => none
    | some fileNodes =>
      some
        (match alGet fileNodes nodeId with
         | some info => info.referenced_declaration.getD nodeId
         | none => nodeId)

/-- Insertion-ordered duplicate removal for node-id sets (the `HashSet` of
results in `goto_references`). -/
def dedupNatsGo (seen : List Nat) : List Nat → List Nat
  | [] => []
  | x :: xs => if x ∈ seen then dedupNatsGo seen xs else x :: dedupNatsGo (x :: seen) xs

/-- Duplicate removal preserving first occurrences. -/
def dedupNats (l : List Nat) : List Nat := dedupNatsGo [] l

/-- The final location dedup of `goto_references` (lines 203-211): the key
(uri, start line, start char, end line, end char) determines the whole
`Location`, so this deduplicates by equality, keeping first occurrences. -/
def dedupLocationsGo (seen : List Location) : List Location → List Location
  | [] => []
  | l :: rest =>
    if l ∈ seen then dedupLocationsGo seen rest
    else l :: dedupLocationsGo (l :: seen) rest

/-- Location list deduplication preserving first occurrences. -/
def dedupLocations (l : List Location) : List Location := dedupLocationsGo [] l

/-- The collection tail of src/references.rs `goto_references` (lines
183-213): the adjacency of the target plus the target itself, converted to
locations and deduplicated; an absent adjacency entry yields the empty
list. -/
def collectRefLocations (fs : FS) (nodes : NodeTable) (idToPathMap : List (Str × Str))
    (allRefs : List (Nat × List Nat)) (targetId : Nat) : List Location :=
  match alGet allRefs targetId with
  | none => []
  | some refs =>
    let results := dedupNats (refs ++ [targetId])
    let locations := results.filterMap (id_to_location fs nodes idToPathMap)
    dedupLocations locations

/-- src/references.rs `goto_references` (lines 109-214): parse the AST
environment, resolve the cursor to a target declaration id, and collect all
its reference locations. -/
def goto_references (fs : FS) (ast : Json) (fileUri : Url) (pos : Position) (sourceBytes : Str) : List Location :=
  match gotoRefsEnv ast fileUri with
  | none => []
  | some (nodes, idToPathMap, absPath) =>
    match targetIdAt nodes absPath (pos_to_bytes sourceBytes pos) with
    | none => []
    | some t => collectRefLocations fs nodes idToPathMap (all_references nodes) t

/- ===== Rename planner (src/rename.rs) ===== -/

/-- Rust `u8::is_ascii_alphanumeric` or `b'_'`: the identifier byte class
`[A-Za-z0-9_]` used by the rename planner. -/
def isWordByte (b : Nat) : Bool :=
  (48 ≤ b && b ≤ 57) || (65 ≤ b && b ≤ 90) || (97 ≤ b && b ≤ 122) || b = 95

/-- Rust `u8::is_ascii_digit`. -/
def isDigitByte (b : Nat) : Bool := 48 ≤ b && b ≤ 57

/-- The leftward word-boundary scan of `get_identifier_at_position`
(src/rename.rs lines 26-28): decrease `start` while the previous byte is a
word byte. -/
def expandLeft (bytes : List Nat) : Nat → Nat
  | 0 => 0
  | s + 1 => if isWordByte (bytes.getD s 0) then expandLeft bytes s else s + 1

/-- The rightward scan over the bytes after the cursor. -/
def expandRightGo : List Nat → Nat → Nat
  | [], e => e
  | b :: rest, e => if isWordByte b then expandRightGo rest (e + 1) else e

/-- The rightward word-boundary scan of `get_identifier_at_position`
(src/rename.rs lines 31-33): increase `end` while the byte there is a word
byte. -/
def expandRight (bytes : List Nat) (e : Nat) : Nat :=
  expandRightGo (bytes.drop e) e

/-- src/rename.rs `get_identifier_at_position` (lines 8-45): take the line at
the position (None when the line index or the character index is out of
range), expand left and right over word bytes, reject an empty span or one
starting with a digit, and return the spanned text. The spanned bytes are all
ASCII word bytes, so decoding them byte-by-byte equals the Rust slice. -/
def get_identifier_at_position (sourceBytes : Str) (pos : Position) : Option Str :=
  let lines := linesOf sourceBytes
  if h : pos.line < lines.length then
    let bytes := utf8Bytes (lines.get ⟨pos.line, h⟩)
    if pos.character > bytes.length then none
    else
      let s := expandLeft bytes pos.character
      let e := expandRight bytes pos.character
      if s = e then none
      else if isDigitByte (bytes.getD s 0) then none
      else some (((bytes.drop s).take (e - s)).map Char.ofNat)
  else none

/-- First byte index of a substring in a byte string (Rust `str::find`; on
valid UTF-8 every match of a valid needle lies on character boundaries, so
the byte-level search coincides with the Rust one). -/
def findSub : List Nat → List Nat → Option Nat
  | hay, needle =>
    if needle.isPrefixOf hay then some 0
    else
      match hay with
      | [] => none
      | _ :: rest => (findSub rest needle).map (· + 1)

/-- src/rename.rs `adjust_range_for_identifier` (lines 50-95): on a
single-line range within the line's byte length, find the identifier inside
the range text and narrow the range to exactly that occurrence; `none` for
multi-line ranges, out-of-range character indices, or a missing
occurrence. -/
def adjust_range_for_identifier (range : Range) (sourceBytes : Str) (identifier : Str) : Option Range :=
  let lines := linesOf sourceBytes
  let startLine := range.start.line
  if startLine ≠ range.endPos.line then none
  else if h : startLine < lines.length then
    let bytes := utf8Bytes (lines.get ⟨startLine, h⟩)
    let startChar := range.start.character
    let endChar := range.endPos.character
    if startChar > endChar ∨ endChar > bytes.length then none
    else
      let rangeBytes := (bytes.drop startChar).take (endChar - startChar)
      match findSub rangeBytes (utf8Bytes identifier) with
      | none => none
      | some p =>
        let newStart := startChar + p
        let newEnd := newStart + (utf8Bytes identifier).length
        if newEnd ≤ endChar then
          some ⟨⟨startLine, newStart⟩, ⟨range.endPos.line, newEnd⟩⟩
        else none
  else none

/-- `changes.entry(uri).or_default().push(edit)` on the per-URI edit map. -/
def pushEditEntry (changes : List (Url × List TextEdit)) (u : Url) (e : TextEdit) : List (Url × List TextEdit) :=
  match changes with
  | [] => [(u, [e])]
  | (u', es) :: rest =>
    if u' = u then (u', es ++ [e]) :: rest else (u', es) :: pushEditEntry rest u e

/-- The location loop of src/rename.rs `rename_symbol` (lines 120-136): read
each location's file (skipping unreadable ones), narrow the range to the
identifier with fallback to the original range, and append the text edit
under the location's URI. -/
def renameChangesLoop (fs : FS) (identifier newName : Str) :
    List Location → List (Url × List TextEdit) → List (Url × List TextEdit)
  | [], changes => changes
  | loc :: rest, changes =>
    match fsRead fs loc.uri.path with
    | none => renameChangesLoop fs identifier newName rest changes
    | some locationBytes =>
      let adjusted := (adjust_range_for_identifier loc.range locationBytes identifier).getD loc.range
      renameChangesLoop fs identifier newName rest
        (pushEditEntry changes loc.uri ⟨adjusted, newName⟩)

/-- src/rename.rs `rename_symbol` (lines 99-143): extract the identifier at
the cursor, collect all reference locations, and build the per-URI edit plan
with `newText = newName` everywhere. -/
def rename_symbol (fs : FS) (ast : Json) (fileUri : Url) (pos : Position) (sourceBytes : Str) (newName : Str) : Option WorkspaceEdit :=
  match get_identifier_at_position sourceBytes pos with
  | none => none
  | some identifier =>
    let locations := goto_references fs ast fileUri pos sourceBytes
    if locations.isEmpty then none
    else some ⟨renameChangesLoop fs identifier newName locations []⟩

/- ===== Goto declaration (goto.rs, not under src/; spec section 4.3) ===== -/

/-- Modelled from the spec: `goto_declaration` lives in goto.rs, which is not
under src/. Spec section 4.3: resolve the node at the cursor, follow
`referencedDeclaration` if present (one hop), and return `idToLocation` of
that id; empty/missing AST sections yield no location. -/
def goto_declaration (fs : FS) (ast : Json) (fileUri : Url) (pos : Position) (sourceBytes : Str) : Option Location :=
  match gotoRefsEnv ast fileUri with
  | none => none
  | some (nodes, idToPathMap, absPath) =>
    match targetIdAt nodes absPath (pos_to_bytes sourceBytes pos) with
    | none => none
    | some t => id_to_location fs nodes idToPathMap t

/- ===== LSP handlers (src/lsp.rs) ===== -/

/-- The response tail of src/lsp.rs `ForgeLsp::goto_definition` (lines
331-345): return the declaration location when one is found, otherwise fall
back to a zero-width location at the request position. The same tail serves
`goto_declaration` (lines 416-430). -/
def goto_definition_result (fs : FS) (ast : Json) (uri : Url) (pos : Position) (sourceBytes : Str) : Option Location :=
  match goto_declaration fs ast uri pos sourceBytes with
  | some location => some location
  | none => some ⟨uri, ⟨pos, pos⟩⟩

/-- Strict lexicographic order on positions (the derived `Ord` of
`lsp_types::Position`: line first, then character). -/
def posLtB (a b : Position) : Bool :=
  a.line < b.line || (a.line = b.line && a.character < b.character)

/-- Stable insertion for sorting edits by start position descending
(`sorted_edits.sort_by(|a, b| b.range.start.cmp(&a.range.start))`). -/
def insertDesc (e : TextEdit) : List TextEdit → List TextEdit
  | [] => [e]
  | x :: xs => if posLtB x.range.start e.range.start then e :: x :: xs else x :: insertDesc e xs

/-- Sort edits by start position descending. -/
def sortEditsDesc (edits : List TextEdit) : List TextEdit := edits.foldr insertDesc []

/-- Prefix of a string up to a byte count (`&content[..start_byte]`). -/
def takeBytes : Str → Nat → Str
  | _, 0 => []
  | [], _ => []
  | c :: rest, n => c :: takeBytes rest (n - c.utf8Size)

/-- Suffix of a string from a byte count (`&content[end_byte..]`). -/
def dropBytes : Str → Nat → Str
  | s, 0 => s
  | [], _ => []
  | c :: rest, n => dropBytes rest (n - c.utf8Size)

/-- `String::replace_range(start_byte..end_byte, new_text)` with byte
offsets. -/
def replaceRangeBytes (content : Str) (startB endB : Nat) (newText : Str) : Str :=
  takeBytes content startB ++ newText ++ dropBytes content endB

/-- The edit loop of src/lsp.rs `apply_workspace_edit` (lines 145-149):
convert each range to byte offsets against the current content (errors
propagate) and splice in the new text. -/
def applyEditsLoop (content : Str) : List TextEdit → Except String Str
  | [] => .ok content
  | e :: rest =>
    match byte_offset content e.range.start with
    | .error msg => .error msg
    | .ok startB =>
      match byte_offset content e.range.endPos with
      | .error msg => .error msg
      | .ok endB => applyEditsLoop (replaceRangeBytes content startB endB e.newText) rest

/-- The per-file loop of src/lsp.rs `apply_workspace_edit` (lines 135-155):
read the file, apply its edits sorted by start descending, and write the file
back; any failure aborts the loop immediately, leaving files already written
in their new state. -/
def awLoop (fs : FS) : List (Url × List TextEdit) → Except String Unit × FS
  | [] => (.ok (), fs)
  | (uri, edits) :: rest =>
    match fsRead fs uri.path with
    | none => (.error "read failed", fs)
    | some content =>
      match applyEditsLoop content (sortEditsDesc edits) with
      | .error e => (.error e, fs)
      | .ok content' =>
        match fsWrite fs uri.path content' with
        | none => (.error "write failed", fs)
        | some fs' => awLoop fs' rest

/-- src/lsp.rs `ForgeLsp::apply_workspace_edit` (lines 135-155), with the
ambient file system made explicit. -/
def apply_workspace_edit (fs : FS) (w : WorkspaceEdit) : Except String Unit × FS :=
  awLoop fs w.changes

/-- The changes of a rename plan whose URI differs from the active document
(applied server-side; src/lsp.rs lines 602-610). -/
def serverChangesOf (w : WorkspaceEdit) (uri : Url) : List (Url × List TextEdit) :=
  w.changes.filter (fun kv => ¬ (kv.1 = uri))

/-- The changes of a rename plan for the active document itself (returned to
the client; src/lsp.rs lines 602-610). -/
def clientChangesOf (w : WorkspaceEdit) (uri : Url) : List (Url × List TextEdit) :=
  w.changes.filter (fun kv => kv.1 = uri)

/-- src/lsp.rs `ForgeLsp::rename` (lines 514-645) after AST resolution: read
the active document, build the rename plan, split it into server-side and
client-side halves, apply the server half to disk (a failure returns `None`
to the client, keeping whatever was already written), and return the client
half, or `None` when it is empty. -/
def lsp_rename (fs : FS) (ast : Json) (uri : Url) (pos : Position) (newName : Str) : Option WorkspaceEdit × FS :=
  match fsRead fs uri.path with
  | none => (none, fs)
  | some sourceBytes =>
    match rename_symbol fs ast uri pos sourceBytes newName with
    | none => (none, fs)
    | some workspaceEdit =>
      let serverChanges := serverChangesOf workspaceEdit uri
      let clientChanges := clientChangesOf workspaceEdit uri
      if serverChanges.isEmpty then
        (if clientChanges.isEmpty then none else some ⟨clientChanges⟩, fs)
      else
        match apply_workspace_edit fs ⟨serverChanges⟩ with
        | (.error _, fs') => (none, fs')
        | (.ok _, fs') =>
          ((if clientChanges.isEmpty then none else some ⟨clientChanges⟩), fs')

/- ===== Concrete instances used by witnesses and counterexamples ===== -/

/-- A ten-byte single-line source file used by the reference-query examples. -/
def exContent : Str := "AAAAAAAAAA".data

/-- Declaration node: id 1, spanning the whole file, name at bytes 0-3. -/
def exNodeD : Json :=
  .obj [("id".data, .num 1), ("src".data, .str "0:10:0".data),
        ("nameLocation".data, .str "0:3:0".data)]

/-- Use-site node: id 2, bytes 5-10, referencing declaration 1. -/
def exNodeU : Json :=
  .obj [("id".data, .num 2), ("src".data, .str "5:5:0".data),
        ("referencedDeclaration".data, .num 1)]

/-- An unrelated one-byte node at offset 0 with no referenced declaration. -/
def exNodeX : Json :=
  .obj [("id".data, .num 3), ("src".data, .str "0:1:0".data)]

/-- A compiler AST with one source file and the three nodes above. -/
def exAst : Json :=
  .obj [("sources".data,
          .obj [("/a.sol".data,
                  .arr [.obj [("source_file".data,
                                .obj [("ast".data,
                                        .obj [("nodes".data, .arr [exNodeD, exNodeU, exNodeX])])])]])]),
        ("build_infos".data,
          .arr [.obj [("source_id_to_path".data,
                        .obj [("0".data, .str "/a.sol".data)])]])]

/-- The file system holding the example source file. -/
def exFs : FS := ⟨[("/a.sol".data, exContent)], []⟩

/-- The request URI of the example file. -/
def exUri : Url := ⟨"/a.sol".data⟩

/-- The node table `cache_ids` produces for `exAst`. -/
def exNodes : NodeTable :=
  [("/a.sol".data,
    [(1, ⟨"0:10:0".data, some "0:3:0".data, none⟩),
     (2, ⟨"5:5:0".data, none, some 1⟩),
     (3, ⟨"0:1:0".data, none, none⟩)])]

/-- The file-id-to-path map of `exAst`. -/
def exIpm : List (Str × Str) := [("0".data, "/a.sol".data)]

/-- The location of declaration 1's name (bytes 0-3). -/
def exLoc1 : Location := ⟨⟨"/a.sol".data⟩, ⟨⟨0, 0⟩, ⟨0, 3⟩⟩⟩

/-- The location of use-site 2 (bytes 5-10). -/
def exLoc2 : Location := ⟨⟨"/a.sol".data⟩, ⟨⟨0, 5⟩, ⟨0, 10⟩⟩⟩

/-- Active document of the cross-file rename example: a use of `foo`. -/
def c6ContentA : Str := "qq= foo;".data

/-- Declaration file of the cross-file rename example. -/
def c6ContentB : Str := "int foo = 1;".data

/-- Second use-site file of the cross-file rename example. -/
def c6ContentC : Str := "z=foo".data

/-- Cross-file AST: a use in /a.sol and /c.sol of a declaration in /b.sol. -/
def c6Ast : Json :=
  .obj [("sources".data,
          .obj [("/a.sol".data,
                  .arr [.obj [("source_file".data,
                                .obj [("ast".data,
                                        .obj [("nodes".data,
                                                .arr [.obj [("id".data, .num 10),
                                                            ("src".data, .str "4:3:0".data),
                                                            ("referencedDeclaration".data, .num 1)]])])])]]),
                ("/b.sol".data,
                  .arr [.obj [("source_file".data,
                                .obj [("ast".data,
                                        .obj [("nodes".data,
                                                .arr [.obj [("id".data, .num 1),
                                                            ("src".data, .str "0:10:1".data),
                                                            ("nameLocation".data, .str "4:3:1".data)]])])])]]),
                ("/c.sol".data,
                  .arr [.obj [("source_file".data,
                                .obj [("ast".data,
                                        .obj [("nodes".data,
                                                .arr [.obj [("id".data, .num 20),
                                                            ("src".data, .str "2:3:2".data),
                                                            ("referencedDeclaration".data, .num 1)]])])])]])]),
        ("build_infos".data,
          .arr [.obj [("source_id_to_path".data,
                        .obj [("0".data, .str "/a.sol".data),
                              ("1".data, .str "/b.sol".data),
                              ("2".data, .str "/c.sol".data)])]])]

/-- File system of the cross-file rename example; writing /b.sol fails. -/
def c6Fs : FS :=
  ⟨[("/a.sol".data, c6ContentA), ("/b.sol".data, c6ContentB), ("/c.sol".data, c6ContentC)],
   ["/b.sol".data]⟩

/-- The rename plan `rename_symbol` produces in the cross-file example. -/
def c6Plan : WorkspaceEdit :=
  ⟨[(⟨"/a.sol".data⟩, [⟨⟨⟨0, 4⟩, ⟨0, 7⟩⟩, "bar".data⟩]),
    (⟨"/c.sol".data⟩, [⟨⟨⟨0, 2⟩, ⟨0, 5⟩⟩, "bar".data⟩]),
    (⟨"/b.sol".data⟩, [⟨⟨⟨0, 4⟩, ⟨0, 7⟩⟩, "bar".data⟩])]⟩

/-- The file system after the aborted rename: /c.sol was already rewritten
when the write to /b.sol failed. -/
def c6FsAfter : FS :=
  ⟨[("/a.sol".data, c6ContentA), ("/b.sol".data, c6ContentB), ("/c.sol".data, "z=bar".data)],
   ["/b.sol".data]⟩

/-- An AST whose single node is a declaration with no use sites. -/
def c8Ast : Json :=
  .obj [("sources".data,
          .obj [("/d.sol".data,
                  .arr [.obj [("source_file".data,
                                .obj [("ast".data,
                                        .obj [("nodes".data,
                                                .arr [.obj [("id".data, .num 7),
                                                            ("src".data, .str "0:5:0".data),
                                                            ("nameLocation".data, .str "1:2:0".data)]])])])]])]),
        ("build_infos".data,
          .arr [.obj [("source_id_to_path".data,
                        .obj [("0".data, .str "/d.sol".data)])]])]

/-- File system of the no-use-site example. -/
def c8Fs : FS := ⟨[("/d.sol".data, "hello".data)], []⟩

/-- Node table of the no-use-site example. -/
def c8Nodes : NodeTable :=
  [("/d.sol".data, [(7, ⟨"0:5:0".data, some "1:2:0".data, none⟩)])]

/-- File-id map of the no-use-site example. -/
def c8Ipm : List (Str × Str) := [("0".data, "/d.sol".data)]

/-- The resolvable location of declaration 7's name. -/
def c8Loc : Location := ⟨⟨"/d.sol".data⟩, ⟨⟨0, 1⟩, ⟨0, 3⟩⟩⟩

/-- A node table with a malformed (one-part) span next to a well-formed node
containing the query offset. -/
def c4NodesSkip : NodeTable :=
  [("/a".data, [(1, ⟨"bad".data, none, none⟩), (2, ⟨"0:5:0".data, none, none⟩)])]

/-- The same table with the malformed node removed. -/
def c4NodesKept : NodeTable :=
  [("/a".data, [(2, ⟨"0:5:0".data, none, none⟩)])]

/-- A node table with a three-part span whose first part is not an integer,
next to a well-formed node containing the query offset. -/
def c4NodesAbort : NodeTable :=
  [("/a".data, [(1, ⟨"x:1:0".data, none, none⟩), (2, ⟨"0:5:0".data, none, none⟩)])]

/-- A two-node table for the shortest-span witness. -/
def c3Nodes : NodeTable :=
  [("/a".data, [(1, ⟨"0:10:0".data, none, none⟩), (2, ⟨"2:3:0".data, none, none⟩)])]

/-- The first edit of the example rename plan (fallback to the use-site
span). -/
def exEdit1 : TextEdit := ⟨⟨⟨0, 5⟩, ⟨0, 10⟩⟩, "bar".data⟩

/-- The second edit of the example rename plan (fallback to the declaration's
name span). -/
def exEdit2 : TextEdit := ⟨⟨⟨0, 0⟩, ⟨0, 3⟩⟩, "bar".data⟩

/-- The rename plan produced on the example file at (0,5) with new name
`bar`: both ranges fall back to the compiler span because the identifier (the
whole line) does not fit inside either narrowed range text. -/
def exPlan : WorkspaceEdit :=
  ⟨[(⟨"/a.sol".data⟩, [exEdit1, exEdit2])]⟩

/-- All characters of a string are ASCII (single-byte UTF-8). -/
abbrev allAscii (s : Str) : Prop := ∀ c ∈ s, c.toNat < 128

/- ===== Helper lemmas ===== -/

/-- Whatever `adjust_range_for_identifier` returns stays on the (single) input
line, within the input character bounds, and spans exactly the identifier's
byte length. -/
lemma adjust_range_some (range : Range) (src ident : Str) (r : Range)
    (h : adjust_range_for_identifier range src ident = some r) :
    r.start.line = range.start.line ∧
    r.endPos.line = range.start.line ∧
    range.start.line = range.endPos.line ∧
    range.start.character ≤ r.start.character ∧
    r.endPos.character ≤ range.endPos.character ∧
    r.endPos.character = r.start.character + (utf8Bytes ident).length := by
  unfold adjust_range_for_identifier at h
  simp only [] at h
  split at h
  · exact absurd h (by simp)
  · split at h
    · split at h
      · exact absurd h (by simp)
      · split at h
        · exact absurd h (by simp)
        · split at h
          · injection h with h
            subst h
            refine ⟨rfl, ?_, ?_, ?_, ?_, ?_⟩ <;> simp_all
          · exact absurd h (by simp)
    · exact absurd h (by simp)

/-- Membership is preserved by the node-id dedup loop for elements not yet
seen. -/
lemma mem_dedupNatsGo (a : Nat) : ∀ (seen l : List Nat), a ∈ l → a ∉ seen → a ∈ dedupNatsGo seen l := by
  intro seen l
  induction l generalizing seen with
  | nil => intro h; exact absurd h (by simp)
  | cons x xs ih =>
    intro hl hs
    by_cases hx : x ∈ seen
    · simp only [dedupNatsGo, if_pos hx]
      rcases List.mem_cons.mp hl with rfl | hl'
      · exact absurd hx hs
      · exact ih seen hl' hs
    · simp only [dedupNatsGo, if_neg hx]
      rcases List.mem_cons.mp hl with rfl | hl'
      · exact List.mem_cons_self _ _
      · by_cases hax : a = x
        · subst hax; exact List.mem_cons_self _ _
        · exact List.mem_cons_of_mem _ (ih (x :: seen) hl' (by simp [hax, hs]))

/-- Membership is preserved by node-id deduplication. -/
lemma mem_dedupNats (a : Nat) (l : List Nat) (h : a ∈ l) : a ∈ dedupNats l :=
  mem_dedupNatsGo a [] l h (by simp)

/-- Membership is preserved by the location dedup loop for elements not yet
seen. -/
lemma mem_dedupLocationsGo (a : Location) : ∀ (seen l : List Location), a ∈ l → a ∉ seen → a ∈ dedupLocationsGo seen l := by
  intro seen l
  induction l generalizing seen with
  | nil => intro h; exact absurd h (by simp)
  | cons x xs ih =>
    intro hl hs
    by_cases hx : x ∈ seen
    · simp only [dedupLocationsGo, if_pos hx]
      rcases List.mem_cons.mp hl with rfl | hl'
      · exact absurd hx hs
      · exact ih seen hl' hs
    · simp only [dedupLocationsGo, if_neg hx]
      rcases List.mem_cons.mp hl with rfl | hl'
      · exact List.mem_cons_self _ _
      · by_cases hax : a = x
        · subst hax; exact List.mem_cons_self _ _
        · exact List.mem_cons_of_mem _ (ih (x :: seen) hl' (by simp [hax, hs]))

/-- Membership is preserved by location deduplication. -/
lemma mem_dedupLocations (a : Location) (l : List Location) (h : a ∈ l) : a ∈ dedupLocations l :=
  mem_dedupLocationsGo a [] l h (by simp)

/-- A node whose `src` does not split into exactly three parts is invisible
to the `byte_to_id` node loop: removing it from the list does not change the
result. -/
lemma byteToIdLoop_skip (bp : Nat) (mid : Nat) (info : NodeInfo)
    (h3 : (splitColon info.src).length ≠ 3)
    (pre post : List (Nat × NodeInfo)) (refs : List (Nat × Nat)) :
    byteToIdLoop bp (pre ++ (mid, info) :: post) refs = byteToIdLoop bp (pre ++ post) refs := by
  induction pre generalizing refs with
  | nil =>
    show byteToIdLoop bp ((mid, info) :: post) refs = byteToIdLoop bp post refs
    rcases hsp : splitColon info.src with _ | ⟨p0, _ | ⟨p1, _ | ⟨p2, _ | ⟨p3, tl4⟩⟩⟩⟩ <;>
      simp only [byteToIdLoop, hsp] <;>
      first
        | rfl
        | (exact absurd (by rw [hsp]; rfl) h3)
  | cons hd tl ih =>
    obtain ⟨id0, info0⟩ := hd
    show byteToIdLoop bp ((id0, info0) :: (tl ++ (mid, info) :: post)) refs =
      byteToIdLoop bp ((id0, info0) :: (tl ++ post)) refs
    rcases hsp : splitColon info0.src with _ | ⟨p0, _ | ⟨p1, _ | ⟨p2, _ | ⟨p3, tl4⟩⟩⟩⟩ <;>
      simp only [byteToIdLoop, hsp]
    case cons.cons.cons.nil =>
      cases parseUsize p0 with
      | none => rfl
      | some s =>
        cases parseUsize p1 with
        | none => rfl
        | some l =>
          by_cases hc : s ≤ bp ∧ bp < s + l
          · simp only [if_pos hc]; exact ih _
          · simp only [if_neg hc]; exact ih _
    all_goals exact ih refs

/- ===== Claim theorems ===== -/

/-- C4 counterexample: in a file holding one node whose span has three parts
with a non-integer first part (`"x:1:0"`) and one well-formed node whose span
contains the offset, `byte_to_id` returns `none` — the malformed span aborts
the whole lookup instead of being skipped (without the malformed node the
same query returns the well-formed node's id). -/
theorem byte_to_id_malformed_counterexample :
    byte_to_id c4NodesAbort "/a".data 2 = none ∧
    byte_to_id c4NodesKept "/a".data 2 = some 2 := by
  exact ⟨rfl, rfl⟩

/-- C4 (amended): a node whose `src` does not split on `':'` into exactly
three parts is skipped by `byte_to_id`, which still produces its result from
the remaining nodes; a span with three parts but a non-integer part, however,
aborts the lookup with `none`. -/
theorem byte_to_id_skips_malformed (nodes nodes' : NodeTable) (absPath : Str) (bp : Nat)
    (pre post : List (Nat × NodeInfo)) (mid : Nat) (info : NodeInfo)
    (h3 : (splitColon info.src).length ≠ 3)
    (hget : alGet nodes absPath = some (pre ++ (mid, info) :: post))
    (hget' : alGet nodes' absPath = some (pre ++ post)) :
    byte_to_id nodes absPath bp = byte_to_id nodes' absPath bp := by
  unfold byte_to_id
  rw [hget, hget']
  dsimp only
  rw [byteToIdLoop_skip bp mid info h3 pre post]

/-- C4 witness: a one-part span `"bad"` next to a well-formed node — the
lookup behaves as if the malformed node were absent. -/
theorem byte_to_id_skips_malformed_witness :
    byte_to_id c4NodesSkip "/a".data 2 = byte_to_id c4NodesKept "/a".data 2 :=
  byte_to_id_skips_malformed c4NodesSkip c4NodesKept "/a".data 2 []
    [(2, ⟨"0:5:0".data, none, none⟩)] 1 ⟨"bad".data, none, none⟩ (by decide) rfl rfl

/-- C2 counterexample: `goto_references` at (0,5) returns two locations, one
of which starts at (0,0); re-running `goto_references` with the cursor at
(0,0) — a location in the previous result — returns the empty list, not the
same set (the byte there resolves to a smaller unrelated node). -/
theorem goto_references_click_counterexample :
    goto_references exFs exAst exUri ⟨0, 5⟩ exContent = [exLoc2, exLoc1] ∧
    exLoc1 ∈ goto_references exFs exAst exUri ⟨0, 5⟩ exContent ∧
    exLoc1.range.start = ⟨0, 0⟩ ∧
    goto_references exFs exAst exUri ⟨0, 0⟩ exContent = [] := by
  refine ⟨rfl, ?_, rfl, rfl⟩
  rw [show goto_references exFs exAst exUri ⟨0, 5⟩ exContent = [exLoc2, exLoc1] from rfl]
  simp

/-- C2 (amended): `goto_references` is determined by the resolved target
declaration id: two cursor positions that resolve (through the node at the
byte offset and its `referencedDeclaration`) to the same target id yield the
same location list. Clicking a returned location is only guaranteed to
reproduce the set when the node resolved there has the same target. -/
theorem goto_references_same_target (fs : FS) (ast : Json) (uri : Url) (p1 p2 : Position)
    (src : Str) (nodes : NodeTable) (ipm : List (Str × Str)) (ap : Str) (t : Nat)
    (henv : gotoRefsEnv ast uri = some (nodes, ipm, ap))
    (h1 : targetIdAt nodes ap (pos_to_bytes src p1) = some t)
    (h2 : targetIdAt nodes ap (pos_to_bytes src p2) = some t) :
    goto_references fs ast uri p1 src = goto_references fs ast uri p2 src := by
  simp only [goto_references, henv, h1, h2]

/-- C2 witness: positions (0,5) and (0,1) of the example file both resolve to
declaration 1 and get the same reference set. -/
theorem goto_references_same_target_witness :
    goto_references exFs exAst exUri ⟨0, 5⟩ exContent =
      goto_references exFs exAst exUri ⟨0, 1⟩ exContent :=
  goto_references_same_target exFs exAst exUri ⟨0, 5⟩ ⟨0, 1⟩ exContent
    exNodes exIpm "/a.sol".data 1 rfl rfl rfl

/-- C8 counterexample: a declaration with no use sites — the cursor resolves
to it and its location is resolvable, yet `goto_references` returns the empty
list (the adjacency map has no entry for it), so the returned list does not
include the declaration's location. -/
theorem goto_references_no_use_sites_counterexample :
    gotoRefsEnv c8Ast ⟨"/d.sol".data⟩ = some (c8Nodes, c8Ipm, "/d.sol".data) ∧
    targetIdAt c8Nodes "/d.sol".data (pos_to_bytes "hello".data ⟨0, 1⟩) = some 7 ∧
    id_to_location c8Fs c8Nodes c8Ipm 7 = some c8Loc ∧
    goto_references c8Fs c8Ast ⟨"/d.sol".data⟩ ⟨0, 1⟩ "hello".data = [] := by
  exact ⟨rfl, rfl, rfl, rfl⟩

/-- C8 (amended): when the cursor resolves to a target declaration id that
has an entry in the reference adjacency map (at least one use site) and the
target's location is resolvable, the returned list includes the target
declaration's location. A declaration with no use sites yields the empty
list instead. -/
theorem goto_references_includes_target (fs : FS) (ast : Json) (uri : Url) (pos : Position)
    (src : Str) (nodes : NodeTable) (ipm : List (Str × Str)) (ap : Str) (t : Nat)
    (refs : List Nat) (loc : Location)
    (henv : gotoRefsEnv ast uri = some (nodes, ipm, ap))
    (ht : targetIdAt nodes ap (pos_to_bytes src pos) = some t)
    (hrefs : alGet (all_references nodes) t = some refs)
    (hloc : id_to_location fs nodes ipm t = some loc) :
    loc ∈ goto_references fs ast uri pos src := by
  simp only [goto_references, henv, ht, collectRefLocations, hrefs]
  apply mem_dedupLocations
  apply List.mem_filterMap.mpr
  refine ⟨t, ?_, hloc⟩
  exact mem_dedupNats t _ (by simp)

/-- C8 witness: declaration 1 of the example file has a use site, and its
name location appears in the result set. -/
theorem goto_references_includes_target_witness :
    exLoc1 ∈ goto_references exFs exAst exUri ⟨0, 5⟩ exContent :=
  goto_references_includes_target exFs exAst exUri ⟨0, 5⟩ exContent
    exNodes exIpm "/a.sol".data 1 [2] exLoc1 rfl rfl rfl rfl

/-- C6 counterexample: a rename whose server half must write /c.sol and then
/b.sol, where the write to /b.sol fails. The rename returns `None` to the
client, but /c.sol has already been rewritten on disk — the server-side files
are not all left unchanged. -/
theorem lsp_rename_partial_write_counterexample :
    lsp_rename c6Fs c6Ast ⟨"/a.sol".data⟩ ⟨0, 4⟩ "bar".data = (none, c6FsAfter) ∧
    fsRead c6Fs "/c.sol".data = some "z=foo".data ∧
    fsRead c6FsAfter "/c.sol".data = some "z=bar".data := by
  exact ⟨rfl, rfl, rfl⟩

/-- C6 (amended): when the server-side half of a rename fails to write one of
its target files, the rename returns `None` to the client; files processed
earlier in the same loop, however, keep their rewritten content (the abort is
not a rollback). -/
theorem lsp_rename_none_on_write_failure (fs : FS) (ast : Json) (uri : Url) (pos : Position)
    (newName src : Str) (we : WorkspaceEdit) (fs' : FS) (err : String)
    (hread : fsRead fs uri.path = some src)
    (hplan : rename_symbol fs ast uri pos src newName = some we)
    (hfail : apply_workspace_edit fs ⟨serverChangesOf we uri⟩ = (.error err, fs')) :
    lsp_rename fs ast uri pos newName = (none, fs') := by
  have hse : (serverChangesOf we uri).isEmpty = false := by
    cases hl : serverChangesOf we uri with
    | nil =>
      rw [hl] at hfail
      have hcontra : (Except.ok () : Except String Unit) = .error err :=
        congrArg Prod.fst hfail
      exact Except.noConfusion hcontra
    | cons a l => rfl
  unfold lsp_rename
  rw [hread]
  dsimp only
  rw [hplan]
  dsimp only
  rw [hse]
  simp only [Bool.false_eq_true, if_false]
  rw [hfail]

/-- C6 witness: the counterexample scenario, through the amended theorem. -/
theorem lsp_rename_none_on_write_failure_witness :
    lsp_rename c6Fs c6Ast ⟨"/a.sol".data⟩ ⟨0, 4⟩ "bar".data = (none, c6FsAfter) :=
  lsp_rename_none_on_write_failure c6Fs c6Ast ⟨"/a.sol".data⟩ ⟨0, 4⟩ "bar".data
    c6ContentA c6Plan c6FsAfter "write failed" rfl rfl rfl

/- ===== C3: byte_to_id returns the shortest enclosing span ===== -/

/-- A successful association-list lookup yields a member. -/
lemma alGet_mem {α β : Type} [DecidableEq α] :
    ∀ (l : List (α × β)) (k : α) (v : β), alGet l k = some v → (k, v) ∈ l := by
  intro l
  induction l with
  | nil => intro k v h; exact absurd h (by simp [alGet])
  | cons kv rest ih =>
    intro k v h
    obtain ⟨k', v'⟩ := kv
    by_cases hk : k' = k
    · subst hk
      simp only [alGet, if_pos rfl] at h
      injection h with h
      subst h
      exact List.mem_cons_self _ _
    · simp only [alGet, if_neg hk] at h
      exact List.mem_cons_of_mem _ (ih k v h)

/-- Members of `entryOrInsert` are old members or the inserted pair. -/
lemma entryOrInsert_mem (l : List (Nat × Nat)) (k v : Nat) (kv : Nat × Nat)
    (h : kv ∈ entryOrInsert l k v) : kv ∈ l ∨ kv = (k, v) := by
  unfold entryOrInsert at h
  split at h
  · exact Or.inl h
  · rcases List.mem_append.mp h with h' | h'
    · exact Or.inl h'
    · exact Or.inr (by simpa using h')

/-- After `entryOrInsert l k v` the key `k` is present. -/
lemma entryOrInsert_keyMem_self (l : List (Nat × Nat)) (k v : Nat) :
    ∃ w, (k, w) ∈ entryOrInsert l k v := by
  unfold entryOrInsert
  split
  · next hsome =>
    obtain ⟨w, hw⟩ := Option.isSome_iff_exists.mp hsome
    exact ⟨w, alGet_mem l k w hw⟩
  · exact ⟨v, List.mem_append.mpr (Or.inr (by simp))⟩

/-- `entryOrInsert` preserves key presence. -/
lemma entryOrInsert_keyMem_mono (l : List (Nat × Nat)) (k v k' : Nat)
    (h : ∃ w, (k', w) ∈ l) : ∃ w, (k', w) ∈ entryOrInsert l k v := by
  unfold entryOrInsert
  split
  · exact h
  · obtain ⟨w, hw⟩ := h
    exact ⟨w, List.mem_append.mpr (Or.inl hw)⟩

/-- A parsed span determines the three parts of the `src` string. -/
lemma spanOf_parts (info : NodeInfo) (s l : Nat) (f : Str)
    (h : spanOf info = some (s, l, f)) :
    ∃ p0 p1, splitColon info.src = [p0, p1, f] ∧
      parseUsize p0 = some s ∧ parseUsize p1 = some l := by
  unfold spanOf at h
  rcases hsp : splitColon info.src with _ | ⟨p0, _ | ⟨p1, _ | ⟨p2, _ | ⟨p3, tl4⟩⟩⟩⟩ <;>
      rw [hsp] at h <;> (try dsimp only at h)
  case cons.cons.cons.nil =>
    cases hp0 : parseUsize p0 with
    | none => rw [hp0] at h; simp at h
    | some s0 =>
      rw [hp0] at h
      try dsimp only at h
      cases hp1 : parseUsize p1 with
      | none => rw [hp1] at h; simp at h
      | some l0 =>
        rw [hp1] at h
        try dsimp only at h
        injection h with hv
        injection hv with hv1 hv2
        injection hv2 with hv2 hv3
        subst hv1
        subst hv2
        subst hv3
        exact ⟨p0, p1, rfl, hp0, hp1⟩
  all_goals simp at h

/-- Soundness of the `byte_to_id` node loop: every pair in the produced map
is inherited from the initial map or records a node of the list whose parsed
span contains the byte position and has the pair's key as its length. -/
lemma byteToIdLoop_sound (bp : Nat) :
    ∀ (ns : List (Nat × NodeInfo)) (refs refs' : List (Nat × Nat)),
      byteToIdLoop bp ns refs = some refs' →
      ∀ kv : Nat × Nat, kv ∈ refs' →
        kv ∈ refs ∨
        ∃ info s f, (kv.2, info) ∈ ns ∧ spanOf info = some (s, kv.1, f) ∧
          s ≤ bp ∧ bp < s + kv.1 := by
  intro ns
  induction ns with
  | nil =>
    intro refs refs' h kv hkv
    simp only [byteToIdLoop] at h
    injection h with h
    subst h
    exact Or.inl hkv
  | cons hd rest ih =>
    intro refs refs' h kv hkv
    obtain ⟨id, info⟩ := hd
    rcases hsp : splitColon info.src with _ | ⟨p0, _ | ⟨p1, _ | ⟨p2, _ | ⟨p3, tl4⟩⟩⟩⟩ <;>
        simp only [byteToIdLoop, hsp] at h
    case cons.cons.cons.nil =>
      cases hp0 : parseUsize p0 with
      | none => rw [hp0] at h; exact absurd h (by simp)
      | some s =>
        rw [hp0] at h
        cases hp1 : parseUsize p1 with
        | none => rw [hp1] at h; exact absurd h (by simp)
        | some l =>
          rw [hp1] at h
          dsimp only at h
          by_cases hc : s ≤ bp ∧ bp < s + l
          · rw [if_pos hc] at h
            rcases ih _ refs' h kv hkv with hin | ⟨info', s', f', hmem, hspan, hle, hlt⟩
            · rcases entryOrInsert_mem refs _ _ kv hin with hold | hnew
              · exact Or.inl hold
              · subst hnew
                refine Or.inr ⟨info, s, p2, List.mem_cons_self _ _, ?_, ?_, ?_⟩
                · simp only [spanOf, hsp, hp0, hp1, Nat.add_sub_cancel_left]
                · simpa [Nat.add_sub_cancel_left] using hc.1
                · simpa [Nat.add_sub_cancel_left] using hc.2
            · exact Or.inr ⟨info', s', f', List.mem_cons_of_mem _ hmem, hspan, hle, hlt⟩
          · rw [if_neg hc] at h
            rcases ih _ refs' h kv hkv with hin | ⟨info', s', f', hmem, hspan, hle, hlt⟩
            · exact Or.inl hin
            · exact Or.inr ⟨info', s', f', List.mem_cons_of_mem _ hmem, hspan, hle, hlt⟩
    all_goals
      rcases ih _ refs' h kv hkv with hin | ⟨info', s', f', hmem, hspan, hle, hlt⟩
    all_goals
      first
        | exact Or.inl hin
        | exact Or.inr ⟨info', s', f', List.mem_cons_of_mem _ hmem, hspan, hle, hlt⟩

/-- The `byte_to_id` node loop never loses keys. -/
lemma byteToIdLoop_mono (bp : Nat) :
    ∀ (ns : List (Nat × NodeInfo)) (refs refs' : List (Nat × Nat)),
      byteToIdLoop bp ns refs = some refs' →
      ∀ k, (∃ w, (k, w) ∈ refs) → ∃ w, (k, w) ∈ refs' := by
  intro ns
  induction ns with
  | nil =>
    intro refs refs' h k hk
    simp only [byteToIdLoop] at h
    injection h with h
    subst h
    exact hk
  | cons hd rest ih =>
    intro refs refs' h k hk
    obtain ⟨id, info⟩ := hd
    rcases hsp : splitColon info.src with _ | ⟨p0, _ | ⟨p1, _ | ⟨p2, _ | ⟨p3, tl4⟩⟩⟩⟩ <;>
        simp only [byteToIdLoop, hsp] at h
    case cons.cons.cons.nil =>
      cases hp0 : parseUsize p0 with
      | none => rw [hp0] at h; exact absurd h (by simp)
      | some s =>
        rw [hp0] at h
        cases hp1 : parseUsize p1 with
        | none => rw [hp1] at h; exact absurd h (by simp)
        | some l =>
          rw [hp1] at h
          dsimp only at h
          by_cases hc : s ≤ bp ∧ bp < s + l
          · rw [if_pos hc] at h
            exact ih _ refs' h k (entryOrInsert_keyMem_mono refs _ _ k hk)
          · rw [if_neg hc] at h
            exact ih _ refs' h k hk
    all_goals exact ih _ refs' h k hk

/-- Completeness of the `byte_to_id` node loop: every node of the list whose
parsed span contains the byte position contributes its span length as a key
of the produced map. -/
lemma byteToIdLoop_complete (bp : Nat) :
    ∀ (ns : List (Nat × NodeInfo)) (refs refs' : List (Nat × Nat)),
      byteToIdLoop bp ns refs = some refs' →
      ∀ id info, (id, info) ∈ ns →
        ∀ s l f, spanOf info = some (s, l, f) → s ≤ bp → bp < s + l →
          ∃ w, (l, w) ∈ refs' := by
  intro ns
  induction ns with
  | nil =>
    intro refs refs' h id info hmem
    exact absurd hmem (by simp)
  | cons hd rest ih =>
    intro refs refs' h id info hmem s l f hspan hle hlt
    obtain ⟨id0, info0⟩ := hd
    rcases List.mem_cons.mp hmem with heq | htail
    · injection heq with h1 h2
      subst h1
      subst h2
      obtain ⟨p0, p1, hsp, hp0, hp1⟩ := spanOf_parts info s l f hspan
      simp only [byteToIdLoop, hsp, hp0, hp1] at h
      try dsimp only at h
      rw [if_pos ⟨hle, hlt⟩] at h
      refine byteToIdLoop_mono bp rest _ refs' h l ?_
      simpa [Nat.add_sub_cancel_left] using entryOrInsert_keyMem_self refs l id
    · rcases hsp : splitColon info0.src with _ | ⟨p0, _ | ⟨p1, _ | ⟨p2, _ | ⟨p3, tl4⟩⟩⟩⟩ <;>
          simp only [byteToIdLoop, hsp] at h
      case cons.cons.cons.nil =>
        cases hp0 : parseUsize p0 with
        | none => rw [hp0] at h; exact absurd h (by simp)
        | some s0 =>
          rw [hp0] at h
          cases hp1 : parseUsize p1 with
          | none => rw [hp1] at h; exact absurd h (by simp)
          | some l0 =>
            rw [hp1] at h
            dsimp only at h
            by_cases hc : s0 ≤ bp ∧ bp < s0 + l0
            · rw [if_pos hc] at h
              exact ih _ refs' h id info htail s l f hspan hle hlt
            · rw [if_neg hc] at h
              exact ih _ refs' h id info htail s l f hspan hle hlt
      all_goals exact ih _ refs' h id info htail s l f hspan hle hlt

/-- `minKey` returns `none` only on the empty list. -/
lemma minKey_none : ∀ (l : List (Nat × Nat)), minKey l = none → l = [] := by
  intro l h
  cases l with
  | nil => rfl
  | cons kv rest =>
    obtain ⟨k, v⟩ := kv
    simp only [minKey] at h
    cases hrest : minKey rest <;> rw [hrest] at h <;> simp at h

/-- `minKey` bounds every key from below. -/
lemma minKey_le : ∀ (l : List (Nat × Nat)) (m : Nat), minKey l = some m →
    ∀ kv ∈ l, m ≤ kv.1 := by
  intro l
  induction l with
  | nil => intro m h; exact absurd h (by simp [minKey])
  | cons kv rest ih =>
    intro m h kv' hkv'
    obtain ⟨k, v⟩ := kv
    simp only [minKey] at h
    cases hrest : minKey rest with
    | none =>
      rw [hrest] at h
      injection h with h
      subst h
      have := minKey_none rest hrest
      subst this
      rcases List.mem_cons.mp hkv' with rfl | habs
      · exact le_refl _
      · exact absurd habs (by simp)
    | some m' =>
      rw [hrest] at h
      injection h with h
      subst h
      rcases List.mem_cons.mp hkv' with rfl | htail
      · exact min_le_left _ _
      · exact le_trans (min_le_right _ _) (ih m' hrest kv' htail)

/-- C3: when `byte_to_id` returns a node id, that node's parsed span contains
the byte offset under the half-open interval, and no node of the same file
whose span also contains the offset has a strictly shorter span. -/
theorem byte_to_id_shortest (nodes : NodeTable) (absPath : Str) (bp : Nat) (id : Nat)
    (h : byte_to_id nodes absPath bp = some id) :
    ∃ fileNodes, alGet nodes absPath = some fileNodes ∧
      ∃ info s l f, (id, info) ∈ fileNodes ∧ spanOf info = some (s, l, f) ∧
        s ≤ bp ∧ bp < s + l ∧
        ∀ id' info', (id', info') ∈ fileNodes →
          ∀ s' l' f', spanOf info' = some (s', l', f') →
            s' ≤ bp → bp < s' + l' → l ≤ l' := by
  unfold byte_to_id at h
  cases hget : alGet nodes absPath with
  | none => rw [hget] at h; simp at h
  | some fileNodes =>
    rw [hget] at h
    dsimp only at h
    cases hloop : byteToIdLoop bp fileNodes [] with
    | none => rw [hloop] at h; simp at h
    | some refs =>
      rw [hloop] at h
      dsimp only at h
      cases hmin : minKey refs with
      | none => rw [hmin] at h; simp at h
      | some m =>
        rw [hmin] at h
        dsimp only at h
        have hmem : (m, id) ∈ refs := alGet_mem refs m id h
        rcases byteToIdLoop_sound bp fileNodes [] refs hloop (m, id) hmem with
          habs | ⟨info, s, f, hnode, hspan, hle, hlt⟩
        · exact absurd habs (by simp)
        · refine ⟨fileNodes, rfl, info, s, m, f, hnode, hspan, hle, hlt, ?_⟩
          intro id' info' hmem' s' l' f' hspan' hle' hlt'
          obtain ⟨w, hw⟩ :=
            byteToIdLoop_complete bp fileNodes [] refs hloop id' info' hmem' s' l' f'
              hspan' hle' hlt'
          exact minKey_le refs m hmin (l', w) hw

/-- Every edit in `pushEditEntry changes u0 e0` is an edit of `changes` or
the pushed edit itself. -/
lemma pushEditEntry_mem :
    ∀ (changes : List (Url × List TextEdit)) (u0 : Url) (e0 : TextEdit)
      (u : Url) (es : List TextEdit), (u, es) ∈ pushEditEntry changes u0 e0 →
      ∀ e ∈ es, (∃ es', (u, es') ∈ changes ∧ e ∈ es') ∨ e = e0 := by
  intro changes
  induction changes with
  | nil =>
    intro u0 e0 u es hmem e he
    simp only [pushEditEntry] at hmem
    rcases List.mem_singleton.mp hmem with heq
    injection heq with h1 h2
    subst h2
    exact Or.inr (List.mem_singleton.mp he)
  | cons hd rest ih =>
    intro u0 e0 u es hmem e he
    obtain ⟨u', es'⟩ := hd
    by_cases hu : u' = u0
    · simp only [pushEditEntry, if_pos hu] at hmem
      rcases List.mem_cons.mp hmem with heq | htail
      · injection heq with h1 h2
        subst h1
        subst h2
        rcases List.mem_append.mp he with he' | he'
        · exact Or.inl ⟨es', List.mem_cons_self _ _, he'⟩
        · exact Or.inr (List.mem_singleton.mp he')
      · exact Or.inl ⟨es, List.mem_cons_of_mem _ htail, he⟩
    · simp only [pushEditEntry, if_neg hu] at hmem
      rcases List.mem_cons.mp hmem with heq | htail
      · exact Or.inl ⟨es, by rw [heq]; exact List.mem_cons_self _ _, he⟩
      · rcases ih u0 e0 u es htail e he with ⟨es'', hmem'', he''⟩ | hr
        · exact Or.inl ⟨es'', List.mem_cons_of_mem _ hmem'', he''⟩
        · exact Or.inr hr

/-- Invariant of the rename edit loop: every produced edit carries the new
name, and its range is either narrowed to exactly the identifier's byte
length on one line or equals the range of one of the processed locations. -/
lemma renameChangesLoop_edits (fs : FS) (ident newName : Str) (L : List Location) :
    ∀ (locs : List Location) (acc : List (Url × List TextEdit)),
      (∀ loc ∈ locs, loc ∈ L) →
      (∀ u es, (u, es) ∈ acc → ∀ e ∈ es,
        e.newText = newName ∧
        ((e.range.endPos.line = e.range.start.line ∧
          e.range.endPos.character = e.range.start.character + (utf8Bytes ident).length) ∨
         ∃ loc ∈ L, e.range = loc.range)) →
      ∀ u es, (u, es) ∈ renameChangesLoop fs ident newName locs acc → ∀ e ∈ es,
        e.newText = newName ∧
        ((e.range.endPos.line = e.range.start.line ∧
          e.range.endPos.character = e.range.start.character + (utf8Bytes ident).length) ∨
         ∃ loc ∈ L, e.range = loc.range) := by
  intro locs
  induction locs with
  | nil => intro acc hsub hacc u es hmem; exact hacc u es hmem
  | cons loc rest ih =>
    intro acc hsub hacc u es hmem
    have hsub' : ∀ loc' ∈ rest, loc' ∈ L := fun loc' h => hsub loc' (List.mem_cons_of_mem _ h)
    simp only [renameChangesLoop] at hmem
    cases hread : fsRead fs loc.uri.path with
    | none =>
      rw [hread] at hmem
      exact ih _ hsub' hacc u es hmem
    | some locationBytes =>
      rw [hread] at hmem
      dsimp only at hmem
      refine ih _ hsub' ?_ u es hmem
      intro u' es' hmem' e' he'
      rcases pushEditEntry_mem acc loc.uri _ u' es' hmem' e' he' with hold | hnew
      · obtain ⟨es'', hmem'', he''⟩ := hold
        exact hacc u' es'' hmem'' e' he''
      · subst hnew
        refine ⟨rfl, ?_⟩
        cases hadj : adjust_range_for_identifier loc.range locationBytes ident with
        | none =>
          simp only [hadj, Option.getD_none]
          exact Or.inr ⟨loc, hsub loc (List.mem_cons_self _ _), rfl⟩
        | some r =>
          simp only [hadj, Option.getD_some]
          obtain ⟨h1, h2, _, _, _, h6⟩ := adjust_range_some loc.range locationBytes ident r hadj
          exact Or.inl ⟨h2.trans h1.symm, h6⟩

/-- C5: every text edit of a rename plan has `newText = newName`, and each
edit's range is either narrowed — staying on one line with a character length
equal to the byte length of the identifier extracted at the cursor — or falls
back to the compiler-emitted range of one of the reference locations. -/
theorem rename_symbol_edit_shape (fs : FS) (ast : Json) (uri : Url) (pos : Position)
    (src newName : Str) (we : WorkspaceEdit) (ident : Str)
    (hid : get_identifier_at_position src pos = some ident)
    (h : rename_symbol fs ast uri pos src newName = some we) :
    ∀ u es, (u, es) ∈ we.changes → ∀ e ∈ es,
      e.newText = newName ∧
      ((e.range.endPos.line = e.range.start.line ∧
        e.range.endPos.character = e.range.start.character + (utf8Bytes ident).length) ∨
       ∃ loc ∈ goto_references fs ast uri pos src, e.range = loc.range) := by
  unfold rename_symbol at h
  rw [hid] at h
  dsimp only at h
  split at h
  · exact absurd h (by simp)
  · injection h with h
    subst h
    exact renameChangesLoop_edits fs ident newName
      (goto_references fs ast uri pos src) (goto_references fs ast uri pos src) []
      (fun _ h => h) (fun u es hmem => absurd hmem (by simp))

/-- C5 witness: the first edit of the rename of the example file at (0,5) to
`bar` carries the new text and falls back to the compiler span (the extracted
identifier spans the whole line, so no narrowing applies). -/
theorem rename_symbol_edit_shape_witness :
    exEdit1.newText = "bar".data ∧
    ((exEdit1.range.endPos.line = exEdit1.range.start.line ∧
      exEdit1.range.endPos.character =
        exEdit1.range.start.character + (utf8Bytes "AAAAAAAAAA".data).length) ∨
     ∃ loc ∈ goto_references exFs exAst exUri ⟨0, 5⟩ exContent,
       exEdit1.range = loc.range) :=
  rename_symbol_edit_shape exFs exAst exUri ⟨0, 5⟩ exContent "bar".data
    exPlan "AAAAAAAAAA".data rfl rfl ⟨"/a.sol".data⟩ [exEdit1, exEdit2]
    (by simp [exPlan]) exEdit1 (by simp)

/-- C3 witness: at offset 2 with spans 0-10 and 2-5 the shorter node 2 is
returned, and its span length bounds every containing span. -/
theorem byte_to_id_shortest_witness :
    ∃ fileNodes, alGet c3Nodes "/a".data = some fileNodes ∧
      ∃ info s l f, (2, info) ∈ fileNodes ∧ spanOf info = some (s, l, f) ∧
        s ≤ 2 ∧ 2 < s + l ∧
        ∀ id' info', (id', info') ∈ fileNodes →
          ∀ s' l' f', spanOf info' = some (s', l', f') →
            s' ≤ 2 → 2 < s' + l' → l ≤ l' :=
  byte_to_id_shortest c3Nodes "/a".data 2 2 rfl

/-- C10: whenever `adjust_range_for_identifier` returns a narrowed range,
that range lies on the same single line as the input range, its start
character is at least the input's start character, and its end character is
at most the input's end character. -/
theorem adjust_range_stays_within (range : Range) (src ident : Str) (r : Range)
    (h : adjust_range_for_identifier range src ident = some r) :
    r.start.line = range.start.line ∧
    r.endPos.line = r.start.line ∧
    range.start.line = range.endPos.line ∧
    range.start.character ≤ r.start.character ∧
    r.endPos.character ≤ range.endPos.character := by
  obtain ⟨h1, h2, h3, h4, h5, _⟩ := adjust_range_some range src ident r h
  exact ⟨h1, h2.trans h1.symm, h3, h4, h5⟩

/-- C10 witness: narrowing the span of `foo` inside `"qq= foo;"`. -/
theorem adjust_range_stays_within_witness :
    let range : Range := ⟨⟨0, 4⟩, ⟨0, 7⟩⟩
    let r : Range := ⟨⟨0, 4⟩, ⟨0, 7⟩⟩
    r.start.line = range.start.line ∧
    r.endPos.line = r.start.line ∧
    range.start.line = range.endPos.line ∧
    range.start.character ≤ r.start.character ∧
    r.endPos.character ≤ range.endPos.character :=
  adjust_range_stays_within ⟨⟨0, 4⟩, ⟨0, 7⟩⟩ c6ContentA "foo".data ⟨⟨0, 4⟩, ⟨0, 7⟩⟩ rfl

/-- C7 counterexample: on an AST in which no definition can be resolved
(`goto_declaration` returns `none`), the definition response is not null — it
is a fabricated zero-width location at the request position. -/
theorem goto_definition_fallback_counterexample :
    goto_declaration exFs (Json.obj []) exUri ⟨1, 2⟩ [] = none ∧
    goto_definition_result exFs (Json.obj []) exUri ⟨1, 2⟩ [] ≠ none ∧
    goto_definition_result exFs (Json.obj []) exUri ⟨1, 2⟩ [] =
      some ⟨exUri, ⟨⟨1, 2⟩, ⟨1, 2⟩⟩⟩ := by
  refine ⟨rfl, ?_, rfl⟩
  decide

/-- C7 (amended): when no definition can be resolved, the response is a
zero-width location at the request position itself — never an LSP protocol
error, but a fabricated location rather than null. -/
theorem goto_definition_fallback (fs : FS) (ast : Json) (uri : Url) (pos : Position) (src : Str)
    (h : goto_declaration fs ast uri pos src = none) :
    goto_definition_result fs ast uri pos src = some ⟨uri, ⟨pos, pos⟩⟩ := by
  simp only [goto_definition_result, h]

/-- C7 witness: the fallback fires on an AST with no `sources` section. -/
theorem goto_definition_fallback_witness :
    goto_definition_result exFs (Json.obj []) exUri ⟨1, 2⟩ [] =
      some ⟨exUri, ⟨⟨1, 2⟩, ⟨1, 2⟩⟩⟩ :=
  goto_definition_fallback exFs (Json.obj []) exUri ⟨1, 2⟩ [] rfl

/-- C9 counterexample: with content `"hi\nworld"` and position (0,4) — whose
character index 4 lies past the end of line 0 — `byte_offset` does not return
an error: it silently returns offset 4, which `byte_offset_to_position` maps
to (1,1), a position on a different line. -/
theorem byte_offset_past_eol_counterexample :
    byte_offset "hi\nworld".data ⟨0, 4⟩ = .ok 4 ∧
    byte_offset_to_position "hi\nworld".data 4 = some ⟨1, 1⟩ := by
  exact ⟨rfl, rfl⟩

/-- C9 (amended): for a position whose character index lies past the end of
its line, identifier extraction returns `none`, but byte-offset conversion
does not fail: whenever the computed offset still fits in the content it
returns `.ok` with an offset that lands at or beyond the next line's start. -/
theorem position_past_eol (content : Str) (pos : Position)
    (h : pos.line < (linesOf content).length)
    (hc : (utf8Bytes ((linesOf content).get ⟨pos.line, h⟩)).length < pos.character) :
    get_identifier_at_position content pos = none ∧
    (sumLens ((linesOf content).take pos.line) + pos.character ≤ byteLen content →
      byte_offset content pos =
        .ok (sumLens ((linesOf content).take pos.line) + pos.character)) := by
  constructor
  · unfold get_identifier_at_position
    rw [dif_pos h, if_pos (by omega)]
  · intro hle
    unfold byte_offset
    rw [if_neg (by omega), if_neg (by omega)]

/-- C9 witness: position (0,4) in `"hi\nworld"`. -/
theorem position_past_eol_witness :
    get_identifier_at_position "hi\nworld".data ⟨0, 4⟩ = none ∧
    (sumLens ((linesOf "hi\nworld".data).take 0) + 4 ≤ byteLen "hi\nworld".data →
      byte_offset "hi\nworld".data ⟨0, 4⟩ =
        .ok (sumLens ((linesOf "hi\nworld".data).take 0) + 4)) :=
  position_past_eol "hi\nworld".data ⟨0, 4⟩ (by decide) (by decide)

/-- C1 counterexample: position (0,3) points into `"ab\ncd"` in the claim's
sense (line 0 exists and offset 3 is within the content), `byte_offset` maps
it to offset 3, but `byte_offset_to_position` maps 3 back to (1,0), not
(0,3). -/
theorem byte_offset_roundtrip_counterexample :
    byte_offset "ab\ncd".data ⟨0, 3⟩ = .ok 3 ∧
    byte_offset_to_position "ab\ncd".data 3 ≠ some ⟨0, 3⟩ ∧
    byte_offset_to_position "ab\ncd".data 3 = some ⟨1, 0⟩ := by
  refine ⟨rfl, ?_, rfl⟩
  decide

/- ===== C1: position / byte-offset round trip ===== -/

/-- An ASCII character occupies one UTF-8 byte. -/
lemma utf8Size_ascii (c : Char) (h : c.toNat < 128) : c.utf8Size = 1 := by
  have hv : c.val ≤ UInt32.ofNatCore 127 (by decide) := by
    rw [UInt32.le_def]
    have h2 : c.val.toNat < 128 := h
    simp only [UInt32.toNat] at h2
    exact BitVec.le_def.mpr (by simpa using Nat.le_of_lt_succ (by omega))
  unfold Char.utf8Size
  rw [if_pos hv]

/-- Byte length distributes over append. -/
lemma byteLen_append : ∀ (a b : Str), byteLen (a ++ b) = byteLen a + byteLen b := by
  intro a b
  induction a with
  | nil => simp [byteLen]
  | cons c r ih =>
    show c.utf8Size + byteLen (r ++ b) = (c.utf8Size + byteLen r) + byteLen b
    rw [ih]
    omega

/-- On ASCII text the byte length is the character count. -/
lemma byteLen_ascii : ∀ (s : Str), allAscii s → byteLen s = s.length := by
  intro s
  induction s with
  | nil => intro _; rfl
  | cons c r ih =>
    intro ha
    have h1 := utf8Size_ascii c (ha c (List.mem_cons_self _ _))
    have h2 := ih (fun x hx => ha x (List.mem_cons_of_mem _ hx))
    simp [byteLen, h1, h2]
    omega

/-- The first equation of `linesOf`: a leading newline opens an empty line. -/
lemma linesOf_nl (r : Str) : linesOf ('\n' :: r) = [] :: linesOf r := rfl

/-- The generic-character equation of `linesOf`. -/
lemma linesOf_cons (c : Char) (r : Str) (h1 : c ≠ '\n') (h2 : c ≠ '\r') :
    linesOf (c :: r) =
      match linesOf r with
      | [] => [[c]]
      | l :: ls => (c :: l) :: ls := by
  rw [linesOf.eq_def]
  split
  · simp_all
  · simp_all
  · simp_all
  · rename_i heq
    obtain ⟨he1, he2⟩ : c = _ ∧ r = _ := by
      first
        | exact heq
        | (injection heq with he1 he2; exact ⟨he1, he2⟩)
    subst he1
    subst he2
    rfl

/-- A nonempty string has at least one line. -/
lemma linesOf_ne_nil (c : Char) (r : Str) : linesOf (c :: r) ≠ [] := by
  rw [linesOf.eq_def]
  split
  · simp_all
  · simp
  · simp
  · split <;> simp

/-- Structure of `linesOf` on carriage-return-free text: the input is its
single line, or its first line followed by a newline and the rest. -/
lemma linesOf_structure : ∀ (s : Str), '\r' ∉ s → s ≠ [] →
    ∃ l0, '\n' ∉ l0 ∧
      ((s = l0 ∧ linesOf s = [l0]) ∨
       ∃ rest, s = l0 ++ '\n' :: rest ∧ linesOf s = l0 :: linesOf rest) := by
  intro s
  induction s with
  | nil => intro _ h; exact absurd rfl h
  | cons c r ih =>
    intro hr _
    have hc : c ≠ '\r' := fun h => hr (h ▸ List.mem_cons_self _ _)
    have hr' : '\r' ∉ r := fun h => hr (List.mem_cons_of_mem _ h)
    by_cases hnl : c = '\n'
    · subst hnl
      exact ⟨[], by simp, Or.inr ⟨r, rfl, linesOf_nl r⟩⟩
    · cases hlr : linesOf r with
      | nil =>
        have hrnil : r = [] := by
          cases r with
          | nil => rfl
          | cons c' r' => exact absurd hlr (linesOf_ne_nil c' r')
        subst hrnil
        refine ⟨[c], fun h => hnl (List.mem_singleton.mp h).symm, Or.inl ⟨rfl, ?_⟩⟩
        rw [linesOf_cons c [] hnl hc]
        rfl
      | cons l ls =>
        have hrne : r ≠ [] := by
          intro h
          rw [h] at hlr
          exact absurd hlr (by simp [linesOf])
        obtain ⟨l0, hl0nl, hcase⟩ := ih hr' hrne
        have hmemnl : '\n' ∉ c :: l0 := by
          intro hmem
          rcases List.mem_cons.mp hmem with h | h
          · exact hnl h.symm
          · exact hl0nl h
        rcases hcase with ⟨heq, hlines⟩ | ⟨rest, heq, hlines⟩
        · refine ⟨c :: l0, hmemnl, Or.inl ⟨by rw [heq], ?_⟩⟩
          rw [linesOf_cons c r hnl hc, hlines]
        · refine ⟨c :: l0, hmemnl, Or.inr ⟨rest, by rw [heq]; rfl, ?_⟩⟩
          rw [linesOf_cons c r hnl hc, hlines]

/-- The position walk stops immediately at remaining distance zero. -/
lemma b2pGo_zero (s : Str) (L C : Nat) : b2pGo s 0 L C = ⟨L, C⟩ := by
  cases s with
  | nil => rfl
  | cons c r => simp [b2pGo]

/-- One walk step over a newline. -/
lemma b2pGo_cons_nl (rest : Str) (rem L C : Nat) (h : ¬ rem = 0) :
    b2pGo ('\n' :: rest) rem L C = b2pGo rest (rem - 1) (L + 1) 0 := by
  simp [b2pGo, h, show ('\n').utf8Size = 1 from rfl]

/-- One walk step over a non-newline character. -/
lemma b2pGo_cons (c : Char) (rest : Str) (rem L C : Nat) (hrem : ¬ rem = 0)
    (hc : ¬ c = '\n') :
    b2pGo (c :: rest) rem L C = b2pGo rest (rem - c.utf8Size) L (C + 1) := by
  simp [b2pGo, hrem, hc]

/-- Walking at most one ASCII newline-free line advances only the character
count. -/
lemma b2pGo_line : ∀ (l0 : Str), '\n' ∉ l0 → allAscii l0 →
    ∀ (rest : Str) (ch L C : Nat), ch ≤ l0.length →
      b2pGo (l0 ++ rest) ch L C = ⟨L, C + ch⟩ := by
  intro l0
  induction l0 with
  | nil =>
    intro _ _ rest ch L C hch
    have : ch = 0 := Nat.le_zero.mp hch
    subst this
    simpa using b2pGo_zero rest L C
  | cons c l0' ih =>
    intro hnl ha rest ch L C hch
    cases ch with
    | zero => exact b2pGo_zero _ L C
    | succ ch' =>
      have hc_ne : ¬ c = '\n' := fun h => hnl (h ▸ List.mem_cons_self _ _)
      have hsize : c.utf8Size = 1 := utf8Size_ascii c (ha c (List.mem_cons_self _ _))
      show b2pGo (c :: (l0' ++ rest)) (ch' + 1) L C = _
      rw [b2pGo_cons c _ _ _ _ (by omega) hc_ne, hsize]
      have harg : ch' + 1 - 1 = ch' := by omega
      rw [harg,
        ih (fun h => hnl (List.mem_cons_of_mem _ h))
          (fun x hx => ha x (List.mem_cons_of_mem _ hx)) rest ch' L (C + 1)
          (by simpa using Nat.lt_succ_iff.mp (Nat.lt_of_succ_le hch))]
      have : C + 1 + ch' = C + (ch' + 1) := by omega
      rw [this]

/-- Walking past a full newline-free line plus its newline byte restarts the
walk on the rest with the line count bumped. -/
lemma b2pGo_skipLine : ∀ (l0 : Str), '\n' ∉ l0 →
    ∀ (rest : Str) (k L C : Nat),
      b2pGo (l0 ++ '\n' :: rest) (byteLen l0 + 1 + k) L C = b2pGo rest k (L + 1) 0 := by
  intro l0
  induction l0 with
  | nil =>
    intro _ rest k L C
    show b2pGo ('\n' :: rest) (byteLen [] + 1 + k) L C = _
    rw [show byteLen [] = 0 from rfl, b2pGo_cons_nl rest _ L C (by omega)]
    have : 0 + 1 + k - 1 = k := by omega
    rw [this]
  | cons c l0' ih =>
    intro hnl rest k L C
    have hc_ne : ¬ c = '\n' := fun h => hnl (h ▸ List.mem_cons_self _ _)
    have hpos := Char.utf8Size_pos c
    show b2pGo (c :: (l0' ++ '\n' :: rest)) (byteLen (c :: l0') + 1 + k) L C = _
    rw [show byteLen (c :: l0') = c.utf8Size + byteLen l0' from rfl,
      b2pGo_cons c _ _ _ _ (by omega) hc_ne]
    have : c.utf8Size + byteLen l0' + 1 + k - c.utf8Size = byteLen l0' + 1 + k := by omega
    rw [this, ih (fun h => hnl (List.mem_cons_of_mem _ h)) rest k L (C + 1)]

/-- The position walk inverts the line/character to byte-offset sum on ASCII
carriage-return-free text. -/
lemma b2pGo_lines : ∀ (line : Nat) (s : Str), allAscii s → '\r' ∉ s →
    line < (linesOf s).length →
    ∀ (ch L : Nat), ch ≤ ((linesOf s).getD line []).length →
      b2pGo s (sumLens ((linesOf s).take line) + ch) L 0 = ⟨L + line, ch⟩ := by
  intro line
  induction line with
  | zero =>
    intro s ha hr hlen ch L hch
    have hs : s ≠ [] := by
      intro he
      subst he
      simp [linesOf] at hlen
    obtain ⟨l0, hl0, hcase⟩ := linesOf_structure s hr hs
    rcases hcase with ⟨heq, hlines⟩ | ⟨rest, heq, hlines⟩
    · rw [hlines] at hch ⊢
      simp only [List.take_zero, sumLens, List.map_nil, List.sum_nil, Nat.zero_add]
      simp only [List.getD, List.get?, Option.getD_some] at hch
      have ha' : allAscii l0 := fun x hx => ha x (heq ▸ hx)
      have := b2pGo_line l0 hl0 ha' [] ch L 0 (by simpa using hch)
      rw [List.append_nil] at this
      rw [heq, this]
      simp
    · rw [hlines] at hch ⊢
      simp only [List.take_zero, sumLens, List.map_nil, List.sum_nil, Nat.zero_add]
      simp only [List.getD, List.get?, Option.getD_some] at hch
      have ha' : allAscii l0 := fun x hx =>
        ha x (heq ▸ List.mem_append.mpr (Or.inl hx))
      rw [heq, b2pGo_line l0 hl0 ha' ('\n' :: rest) ch L 0 hch]
      simp
  | succ line ih =>
    intro s ha hr hlen ch L hch
    have hs : s ≠ [] := by
      intro he
      subst he
      simp [linesOf] at hlen
    obtain ⟨l0, hl0, hcase⟩ := linesOf_structure s hr hs
    rcases hcase with ⟨heq, hlines⟩ | ⟨rest, heq, hlines⟩
    · rw [hlines] at hlen
      simp at hlen
    · have ha0 : allAscii l0 := fun x hx =>
        ha x (heq ▸ List.mem_append.mpr (Or.inl hx))
      have harest : allAscii rest := fun x hx =>
        ha x (heq ▸ List.mem_append.mpr (Or.inr (List.mem_cons_of_mem _ hx)))
      have hrrest : '\r' ∉ rest := fun hx =>
        hr (heq ▸ List.mem_append.mpr (Or.inr (List.mem_cons_of_mem _ hx)))
      have hlen' : line < (linesOf rest).length := by
        rw [hlines] at hlen
        simpa using hlen
      have hch' : ch ≤ ((linesOf rest).getD line []).length := by
        rw [hlines] at hch
        simpa [List.getD] using hch
      rw [hlines]
      simp only [List.take_succ_cons, sumLens, List.map_cons, List.sum_cons]
      have hassoc : byteLen l0 + 1 + ((List.map (fun l => byteLen l + 1)
          ((linesOf rest).take line)).sum + ch) =
          byteLen l0 + 1 + (List.map (fun l => byteLen l + 1)
          ((linesOf rest).take line)).sum + ch := by omega
      rw [heq, show byteLen l0 + 1 + (List.map (fun l => byteLen l + 1)
          ((linesOf rest).take line)).sum + ch =
          byteLen l0 + 1 + ((List.map (fun l => byteLen l + 1)
          ((linesOf rest).take line)).sum + ch) from by omega,
        b2pGo_skipLine l0 hl0 rest _ L 0]
      have := ih rest harest hrrest hlen' ch (L + 1) hch'
      simp only [sumLens] at this
      rw [this]
      have : L + 1 + line = L + (line + 1) := by omega
      rw [this]

/-- The byte offset of a position inside its line stays within the content's
byte length. -/
lemma lines_offset_le : ∀ (line : Nat) (s : Str), allAscii s → '\r' ∉ s →
    line < (linesOf s).length →
    sumLens ((linesOf s).take line) + ((linesOf s).getD line []).length ≤ byteLen s := by
  intro line
  induction line with
  | zero =>
    intro s ha hr hlen
    have hs : s ≠ [] := by
      intro he
      subst he
      simp [linesOf] at hlen
    obtain ⟨l0, hl0, hcase⟩ := linesOf_structure s hr hs
    rcases hcase with ⟨heq, hlines⟩ | ⟨rest, heq, hlines⟩
    · rw [hlines, heq]
      simp only [List.take_zero, sumLens, List.map_nil, List.sum_nil, Nat.zero_add,
        List.getD, List.get?, Option.getD_some]
      rw [byteLen_ascii l0 (fun x hx => ha x (heq ▸ hx))]
    · rw [hlines, heq]
      simp only [List.take_zero, sumLens, List.map_nil, List.sum_nil, Nat.zero_add,
        List.getD, List.get?, Option.getD_some]
      rw [byteLen_append]
      have hal0 : allAscii l0 := fun x hx =>
        ha x (heq ▸ List.mem_append.mpr (Or.inl hx))
      rw [byteLen_ascii l0 hal0]
      omega
  | succ line ih =>
    intro s ha hr hlen
    have hs : s ≠ [] := by
      intro he
      subst he
      simp [linesOf] at hlen
    obtain ⟨l0, hl0, hcase⟩ := linesOf_structure s hr hs
    rcases hcase with ⟨heq, hlines⟩ | ⟨rest, heq, hlines⟩
    · rw [hlines] at hlen
      simp at hlen
    · have harest : allAscii rest := fun x hx =>
        ha x (heq ▸ List.mem_append.mpr (Or.inr (List.mem_cons_of_mem _ hx)))
      have hrrest : '\r' ∉ rest := fun hx =>
        hr (heq ▸ List.mem_append.mpr (Or.inr (List.mem_cons_of_mem _ hx)))
      have hlen' : line < (linesOf rest).length := by
        rw [hlines] at hlen
        simpa using hlen
      have hIH := ih rest harest hrrest hlen'
      rw [hlines, heq]
      rw [List.getD_cons_succ]
      simp only [List.take_succ_cons, sumLens, List.map_cons, List.sum_cons]
      rw [byteLen_append]
      have hbln : byteLen ('\n' :: rest) = 1 + byteLen rest := by
        simp [byteLen, show ('\n').utf8Size = 1 from rfl]
      rw [hbln]
      simp only [sumLens] at hIH
      omega

/-- C1 (amended): on ASCII content without carriage returns, for every
position whose line exists and whose character index does not exceed its
line's length, `byte_offset` succeeds with the line/character byte sum and
`byte_offset_to_position` maps that offset back to the same position. -/
theorem byte_offset_roundtrip (content : Str) (p : Position)
    (ha : allAscii content) (hr : '\r' ∉ content)
    (hline : p.line < (linesOf content).length)
    (hchar : p.character ≤ ((linesOf content).getD p.line []).length) :
    byte_offset content p =
      .ok (sumLens ((linesOf content).take p.line) + p.character) ∧
    byte_offset_to_position content
      (sumLens ((linesOf content).take p.line) + p.character) = some p := by
  constructor
  · unfold byte_offset
    rw [if_neg (by omega)]
    have hle := lines_offset_le p.line content ha hr hline
    rw [if_neg (by omega)]
  · rw [byte_offset_to_position,
      b2pGo_lines p.line content ha hr hline p.character 0 hchar]
    simp

/-- C1 witness: position (1,1) of `"ab\ncd"` round-trips through offset 4. -/
theorem byte_offset_roundtrip_witness :
    byte_offset "ab\ncd".data ⟨1, 1⟩ =
      .ok (sumLens ((linesOf "ab\ncd".data).take 1) + 1) ∧
    byte_offset_to_position "ab\ncd".data
      (sumLens ((linesOf "ab\ncd".data).take 1) + 1) = some ⟨1, 1⟩ :=
  byte_offset_roundtrip "ab\ncd".data ⟨1, 1⟩ (by decide) (by decide) (by decide) (by decide)

end ForgeLsp
